import Mathlib

/-!
# Verification of the gitosu import pipeline (src/src/main.rs)

Shallow embedding of the import pipeline of `gitosu`: name resolution
(the regex on `.osz` file names), repository bootstrap, content
replacement from a zip archive, and commit orchestration.

Strings are modelled as `List Char` (Rust `&str` byte slicing is only
exercised here on ASCII suffixes such as `".osz"`, where bytes and
chars coincide).
-/

namespace Gitosu

/-- `".osz"`, the literal tail `\.osz` of the duplicate-name regex. -/
def dotOsz : List Char := ['.', 'o', 's', 'z']

/-!
## Name resolution (main.rs lines 164-191)

The source builds `Regex::new(r"(.+? \(.+?\))( \((\d+)\))?\.osz")`, runs
`captures_iter` over the file name and takes group 1 of the first match.
The Rust `regex` crate uses leftmost-first (Perl-style) match semantics:
the match at the earliest start position wins, and at a fixed start the
lazy quantifiers `.+?` prefer the shortest text, the optional group
prefers to be present, and `.` matches any character except `'\n'`.
`\d` is modelled as `Char.isDigit` (ASCII digits).

The matcher below is that regex, specialised:
* `tailOk rest` decides whether `( \((\d+)\))?\.osz` matches a prefix of
  `rest` (present-or-absent optional group; `\d+` is greedy but, being
  followed by `\)`, can only succeed on the maximal digit run);
* `findClose a bacc rest` backtracks over the second `.+?` (group-1
  text after `a ++ " ("` is `bacc ++ …`), shortest first;
* `findA acc rest` backtracks over the first `.+?` (`acc ++ …`),
  shortest first, anchored at the start of `acc ++ rest`;
* `regexFirst s` tries each start position left to right and returns
  group 1 of the first match, exactly what the source's
  `for caps in captures_iter { if let Some(n) = caps.get(1) { … break } }`
  computes.
-/

/-- Does ` \((\d+)\)\.osz` (the optional group, present) match at the
front of `rest`?  `\d+` is greedy and followed by `\)`, so only the
maximal digit run can succeed. -/
def tailOpt : List Char → Bool
  | c1 :: c2 :: r =>
    c1 = ' ' && c2 = '(' &&
      (let d := r.takeWhile (fun c => c.isDigit)
       (!d.isEmpty) && (')' :: dotOsz).isPrefixOf (r.drop d.length))
  | _ => false

/-- Does `( \((\d+)\))?\.osz` match at the front of `rest`? -/
def tailOk (rest : List Char) : Bool :=
  dotOsz.isPrefixOf rest || tailOpt rest

/-- Backtracking search for the closing `\)` of group 1: `bacc` is the text
of the second `.+?` consumed so far, `a` the text of the first `.+?`.
Returns group 1 of the first (shortest-`bacc`) success. -/
def findClose (a : List Char) : List Char → List Char → Option (List Char)
  | _, [] => none
  | bacc, c :: rs =>
    if c = ')' ∧ bacc ≠ [] ∧ tailOk rs then
      some (a ++ ' ' :: '(' :: (bacc ++ [')']))
    else if c = '\n' then none
    else findClose a (bacc ++ [c]) rs

/-- Backtracking search for ` \(` after the first `.+?` (`acc` so far),
anchored at the start position where `acc` began. -/
def findA : List Char → List Char → Option (List Char)
  | _, [] => none
  | acc, c :: rs =>
    if c = ' ' ∧ rs.head? = some '(' ∧ acc ≠ [] then
      match findClose acc [] rs.tail with
      | some g => some g
      | none => findA (acc ++ [c]) rs
    else if c = '\n' then none
    else findA (acc ++ [c]) rs

/-- Group 1 of the leftmost-first match of
`(.+? \(.+?\))( \((\d+)\))?\.osz` in `s`, or `none` if no match. -/
def regexFirst : List Char → Option (List Char)
  | [] => none
  | c :: rs =>
    match findA [] (c :: rs) with
    | some g => some g
    | none => regexFirst rs

/-- `" (" ++ n ++ ").osz"`: the tail a duplicate export appends to a
canonical name before the extension. -/
def dupSuffix (n : List Char) : List Char :=
  ' ' :: '(' :: (n ++ ')' :: dotOsz)

/-- Name resolution, factored from `import_file` (main.rs lines 164-191):
the regex result wins; otherwise a present `override_repo` is used;
otherwise the last four *bytes* (here: chars) are cut off the file name
(`file_name[..(file_name.len() - 4)]`).  `none` models the process abort
(panic) that the Rust slice produces when the name is shorter than four
bytes (debug: usize underflow; release: out-of-bounds byte index). -/
def resolve_name (fileName : List Char) (overrideRepo : Option (List Char)) :
    Option (List Char) :=
  match regexFirst fileName with
  | some n => some n
  | none =>
    match overrideRepo with
    | some o => some o
    | none =>
      if fileName.length < 4 then none
      else some (fileName.take (fileName.length - 4))

/-- Follows the spec's words ("fall back to the file name with its
extension stripped", §4.1): cut the file name at its last `'.'`; a name
without a dot is returned unchanged.  This is the *specification-side*
definition, to be compared with the fallback branch of `resolve_name`,
which the source implements as "cut the last four bytes". -/
def spec_stripExtension (s : List Char) : List Char :=
  if '.' ∈ s then
    (s.reverse.drop ((s.reverse.takeWhile (fun c => c ≠ '.')).length + 1)).reverse
  else s

/-!
## Data model: repository, git state, archives

The pipeline's observable state for one project repository.  Commits
record only what the claims are about: the message and the parent
pointers (indices into the chronological commit list); tree contents are
not modelled (`git_add_all` is observationally a no-op here since no
claim inspects committed trees).

Rust failure modes are split faithfully:
* `anyhow` errors returned to the caller become `RunResult.err` tags;
* `.unwrap()` failures (all of `git_add_all`, `git_commit`,
  `git_initial_commit`, main.rs lines 303-341) abort the process and
  become `RunResult.aborted`.
-/

/-- A commit: message plus parent pointers (indices into the repository's
chronological commit list). -/
structure Commit where
  message : List Char
  parents : List Nat
  deriving Repr, DecidableEq

/-- The git side of a repository: the chronological list of commits and
`HEAD` as an index into it (`none` = unborn branch, as after a bare
`Repository::init`). -/
structure GitState where
  commits : List Commit
  headIdx : Option Nat
  deriving Repr, DecidableEq

/-- On-disk state of one project repository directory. `mapDir = none`
means the `map` directory does not exist; `some files` is its file set as
(relative path, bytes) pairs in creation order. `git = none` models a
directory that exists but cannot be opened as a repository
(`Repository::open` fails). -/
structure RepoState where
  readme : Option (List Char)
  mapDir : Option (List (List Char × List Char))
  keptOsz : Option (List Char)
  git : Option GitState
  deriving Repr, DecidableEq

/-- One zip entry, as the pipeline observes it: `enclosedName` is the
result of the zip crate's `enclosed_name()` sanitisation (`none` when the
entry's path would escape the target directory), `data` its bytes. -/
structure Entry where
  enclosedName : Option (List Char)
  data : List Char
  deriving Repr, DecidableEq

/-- The `.osz` input as the pipeline observes it: `unreadable` models
`File::open` failing, `notZip` models `ZipArchive::new` failing, `zip es`
a well-formed archive with entry list `es`. -/
inductive Archive where
  | unreadable
  | notZip
  | zip (es : List Entry)
  deriving Repr, DecidableEq

/-- The `anyhow` error tags `import_file` can return (each carries a
human-readable message in the source, e.g. "Exported archive is
empty!!!" for `emptyArchive`). -/
inductive ImportError where
  | openRepoFailed
  | openOszFailed
  | notZipArchive
  | emptyArchive
  deriving Repr, DecidableEq

/-- How one invocation of `import_file` ends: `ok` (returns `Ok(())`),
`err e` (returns `Err`, surfaced to the caller), or `aborted` (a
`.unwrap()` panicked and the process died). -/
inductive RunResult where
  | ok
  | err (e : ImportError)
  | aborted
  deriving Repr, DecidableEq

/-- Result of one `import_file` invocation: how it ended, the state the
repository directory slot was left in (even on error or abort), and how
many "Map archive contains forbidden files!" warnings were logged. -/
structure ImportOutcome where
  result : RunResult
  repo : Option RepoState
  warnings : Nat
  deriving Repr, DecidableEq

/-!
## Commit orchestration (main.rs lines 303-341)

`repo.signature()` resolves the author/committer identity from ambient
git configuration; its availability is the `sig : Bool` parameter.  All
failure paths in these functions are `.unwrap()`, i.e. process aborts,
modelled by returning `none`.
-/

/-- `git_commit` (main.rs lines 311-326): writes the index to a tree,
takes the current `HEAD` commit as sole parent and commits with message
`"Map update"`.  `none` models the `.unwrap()` panics: missing signature,
or `repo.head()` failing on an unborn branch. -/
def git_commit (sig : Bool) (g : GitState) : Option GitState :=
  if sig then
    match g.headIdx with
    | some h =>
      some { commits := g.commits ++ [⟨("Map update").data, [h]⟩],
             headIdx := some g.commits.length }
    | none => none
  else none

/-- `git_initial_commit` (main.rs lines 328-341): commits the index with
message `"New osu! map"` and *zero* parents (`&[]`), updating `HEAD`.
`none` models the missing-signature `.unwrap()` panic. -/
def git_initial_commit (sig : Bool) (g : GitState) : Option GitState :=
  if sig then
    some { commits := g.commits ++ [⟨("New osu! map").data, []⟩],
           headIdx := some g.commits.length }
  else none

/-!
## Content replacement (main.rs lines 230-269)

The extraction loop over `0..zip.len()`: an entry whose
`enclosed_name()` is `none` is skipped with a warning; otherwise the
entry is written under `map/`.  I/O failures (`by_index`, directory
creation, `File::create`, `io::copy`) have no modelled cause and are not
represented; entry order is archive order, later entries with the same
path simply appear later in the list (as `File::create` truncates).
-/

/-- The extraction loop: returns the files written (in order) and the
number of skipped (escaping) entries, i.e. warnings. -/
def extractEntries : List Entry → List (List Char × List Char) × Nat
  | [] => ([], 0)
  | e :: es =>
    match e.enclosedName with
    | none =>
      let (fs, w) := extractEntries es
      (fs, w + 1)
    | some p =>
      let (fs, w) := extractEntries es
      ((p, e.data) :: fs, w)

/-!
## The import pipeline (main.rs `import_file`, lines 157-281)
-/

/-- Modelled from the spec: the scaffold README template
(`src/defaultreadme.md` is referenced by `include_str!` but is not under
`src/`); per §4.2 it is "templated with the project identifier
substituted into a placeholder", so it is modelled as an abstract
function of the identifier.  No claim depends on the rendered text, only
on whether the scaffold is (re)written. -/
def renderReadme (name : List Char) : List Char :=
  ("# ").data ++ name

/-- The tail of `import_file` from `File::open(path)` on (main.rs lines
230-280), shared by the bootstrap and existing-repository paths:
open the archive, refuse empty archives, clear and repopulate `map/`,
optionally keep the `.osz`, then `git_add_all` + `git_commit`.
`r.git = some g` holds on entry (the repository is open). -/
def importInto (name : List Char) (r : RepoState) (g : GitState)
    (ar : Archive) (keepOsz sig : Bool) : ImportOutcome :=
  match ar with
  | .unreadable => ⟨.err .openOszFailed, some r, 0⟩
  | .notZip => ⟨.err .notZipArchive, some r, 0⟩
  | .zip es =>
    if es.length = 0 then ⟨.err .emptyArchive, some r, 0⟩
    else
      -- `remove_dir_all(map)` if it exists, then the extraction loop;
      -- `create_dir_all(parent)` recreates `map/` with the first
      -- written entry, so `map/` is absent iff nothing was written.
      let ext := extractEntries es
      let r1 : RepoState :=
        { r with mapDir := if ext.1.isEmpty then none else some ext.1 }
      let r2 : RepoState :=
        if keepOsz then { r1 with keptOsz := some (name ++ dotOsz) } else r1
      match git_commit sig g with
      | none => ⟨.aborted, some r2, ext.2⟩
      | some g2 => ⟨.ok, some { r2 with git := some g2 }, ext.2⟩

/-- `import_file` (main.rs lines 157-281) over the repository-directory
slot `slot` that the resolved name maps to (`none` = no directory at
`repos.join(name)`).  `sig` is the ambient identity configuration,
`keepOsz` the `--keep-latest-osz` flag. -/
def import_file (fileName : List Char) (overrideRepo : Option (List Char))
    (ar : Archive) (keepOsz sig : Bool) (slot : Option RepoState) :
    ImportOutcome :=
  match resolve_name fileName overrideRepo with
  | none => ⟨.aborted, slot, 0⟩
  | some name =>
    match slot with
    | some r =>
      -- `repo_exists`: open, never bootstrap.
      match r.git with
      | none => ⟨.err .openRepoFailed, some r, 0⟩
      | some g => importInto name r g ar keepOsz sig
    | none =>
      -- bootstrap: init, write README.md, create empty `map/`,
      -- `git_add_all`, `git_initial_commit` (panics without identity).
      let r0 : RepoState :=
        { readme := some (renderReadme name), mapDir := some [],
          keptOsz := none, git := some ⟨[], none⟩ }
      match git_initial_commit sig ⟨[], none⟩ with
      | none => ⟨.aborted, some r0, 0⟩
      | some g1 => importInto name { r0 with git := some g1 } g1 ar keepOsz sig

/-- Number of zero-parent ("initial") commits in a repository's history
(0 for a directory that is not an openable repository). -/
def initialCommitCount : Option GitState → Nat
  | none => 0
  | some g => (g.commits.filter (fun c => c.parents.isEmpty)).length

/-!
## Helper lemmas
-/

/-- Closed form of the extraction loop: the files written are the
non-escaping entries in archive order, the warning count is the number
of escaping entries. -/
theorem extractEntries_eq (es : List Entry) :
    extractEntries es =
      (es.filterMap (fun e => e.enclosedName.map (fun p => (p, e.data))),
       (es.filter (fun e => e.enclosedName.isNone)).length) := by
  induction es with
  | nil => rfl
  | cons e es ih =>
    cases he : e.enclosedName with
    | none => simp [extractEntries, ih, he, List.filterMap_cons, List.filter_cons]
    | some p => simp [extractEntries, ih, he, List.filterMap_cons, List.filter_cons]

/-!
## Lemmas about the regex matcher

These support the duplicate-collapse property (claim C5): if the regex
maps `X ++ ".osz"` to group 1 `X` (i.e. `X` is a canonical name the
regex does not strip further), then it maps `X ++ " (n).osz"` to `X` as
well, for every nonempty digit string `n`.
-/

theorem findA_dotOsz (acc : List Char) : findA acc dotOsz = none := by
  show findA acc ['.', 'o', 's', 'z'] = none
  simp only [findA]
  split_ifs with h1 h2 h3 h4 h5 h6 h7 h8 <;>
    first
      | rfl
      | exact absurd h1.1 (by decide)
      | exact absurd h2.1 (by decide)
      | exact absurd h3.1 (by decide)
      | exact absurd h4.1 (by decide)
      | exact absurd h5.1 (by decide)
      | exact absurd h6.1 (by decide)
      | exact absurd h7.1 (by decide)
      | exact absurd h8.1 (by decide)

theorem findClose_dotOsz (a bacc : List Char) :
    findClose a bacc dotOsz = none := by
  show findClose a bacc ['.', 'o', 's', 'z'] = none
  simp only [findClose]
  split_ifs with h1 h2 h3 h4 h5 h6 h7 h8 <;>
    first
      | rfl
      | exact absurd h1.1 (by decide)
      | exact absurd h2.1 (by decide)
      | exact absurd h3.1 (by decide)
      | exact absurd h4.1 (by decide)
      | exact absurd h5.1 (by decide)
      | exact absurd h6.1 (by decide)
      | exact absurd h7.1 (by decide)
      | exact absurd h8.1 (by decide)

/-- A successful present-optional-group tail is at least 4 long. -/
theorem tailOpt_length {rs : List Char} (h : tailOpt rs = true) :
    4 ≤ rs.length := by
  rcases rs with _ | ⟨c1, _ | ⟨c2, r⟩⟩
  · simp [tailOpt] at h
  · simp [tailOpt] at h
  · simp only [tailOpt, Bool.and_eq_true, decide_eq_true_eq] at h
    have hpre := (List.isPrefixOf_iff_prefix.mp h.2.2).length_le
    have hdl : (r.drop (r.takeWhile (fun c => c.isDigit)).length).length ≤
        r.length := by
      simp
    simp only [List.length_cons, dotOsz, List.length_nil] at hpre ⊢
    omega

/-- A successful optional-group-plus-`\.osz` tail is at least 4 long. -/
theorem tailOk_length {rs : List Char} (h : tailOk rs = true) :
    4 ≤ rs.length := by
  unfold tailOk at h
  rcases Bool.or_eq_true_iff.mp h with h | h
  · have := (List.isPrefixOf_iff_prefix.mp h).length_le
    simpa [dotOsz] using this
  · exact tailOpt_length h

/-- One-step unfolding of `findClose` on a cons cell. -/
theorem findClose_cons (a bacc : List Char) (c : Char) (rs : List Char) :
    findClose a bacc (c :: rs) =
      if c = ')' ∧ bacc ≠ [] ∧ tailOk rs then
        some (a ++ ' ' :: '(' :: (bacc ++ [')']))
      else if c = '\n' then none
      else findClose a (bacc ++ [c]) rs := by
  rw [findClose]

/-- One-step unfolding of `findA` on a cons cell. -/
theorem findA_cons (acc : List Char) (c : Char) (rs : List Char) :
    findA acc (c :: rs) =
      if c = ' ' ∧ rs.head? = some '(' ∧ acc ≠ [] then
        match findClose acc [] rs.tail with
        | some g => some g
        | none => findA (acc ++ [c]) rs
      else if c = '\n' then none
      else findA (acc ++ [c]) rs := by
  rw [findA]

/-- A group-1 result of `findClose` leaves at least the four characters
of `".osz"` unconsumed: `|g| + 4 ≤ |a| + |bacc| + |rest| + 2`. -/
theorem findClose_length {a : List Char} :
    ∀ rest bacc g, findClose a bacc rest = some g →
      g.length + 4 ≤ a.length + bacc.length + rest.length + 2
  | [], bacc, g, h => by cases h
  | c :: rs, bacc, g, h => by
    rw [findClose_cons] at h
    by_cases hc : c = ')' ∧ bacc ≠ [] ∧ tailOk rs
    · rw [if_pos hc] at h
      have hrs := tailOk_length hc.2.2
      cases h
      simp only [List.length_append, List.length_cons, List.length_nil]
      omega
    · rw [if_neg hc] at h
      by_cases hnl : c = '\n'
      · rw [if_pos hnl] at h; cases h
      · rw [if_neg hnl] at h
        have := findClose_length rs (bacc ++ [c]) g h
        simp only [List.length_append, List.length_cons, List.length_nil] at this ⊢
        omega

/-- A group-1 result of `findA` leaves at least `".osz"` unconsumed. -/
theorem findA_length :
    ∀ rest acc g, findA acc rest = some g →
      g.length + 4 ≤ acc.length + rest.length
  | [], acc, g, h => by cases h
  | c :: rs, acc, g, h => by
    rw [findA_cons] at h
    by_cases hc : c = ' ' ∧ rs.head? = some '(' ∧ acc ≠ []
    · rw [if_pos hc] at h
      match hfc : findClose acc [] rs.tail with
      | some g' =>
        simp only [hfc] at h
        cases h
        have := findClose_length rs.tail [] _ hfc
        have hrs : rs.tail.length + 1 = rs.length := by
          match rs, hc.2.1 with
          | r :: rs', _ => simp
        simp only [List.length_nil, List.length_cons] at this ⊢
        omega
      | none =>
        simp only [hfc] at h
        have := findA_length rs (acc ++ [c]) g h
        simp only [List.length_append, List.length_cons, List.length_nil] at this ⊢
        omega
    · rw [if_neg hc] at h
      by_cases hnl : c = '\n'
      · rw [if_pos hnl] at h; cases h
      · rw [if_neg hnl] at h
        have := findA_length rs (acc ++ [c]) g h
        simp only [List.length_append, List.length_cons, List.length_nil] at this ⊢
        omega

/-- Any group 1 found anywhere in `s` leaves `".osz"` unconsumed. -/
theorem regexFirst_length :
    ∀ s g, regexFirst s = some g → g.length + 4 ≤ s.length
  | [], g, h => by cases h
  | c :: rs, g, h => by
    rw [regexFirst] at h
    match hfA : findA [] (c :: rs) with
    | some g' =>
      simp only [hfA] at h
      cases h
      simpa using findA_length (c :: rs) [] _ hfA
    | none =>
      simp only [hfA] at h
      have := regexFirst_length rs g h
      simp only [List.length_cons]
      omega

/-- `findClose` results contain no newline beyond what `a`/`bacc` hold:
`.+?` cannot match `'\n'`. -/
theorem findClose_no_nl {a : List Char} (ha : '\n' ∉ a) :
    ∀ rest bacc g, '\n' ∉ bacc → findClose a bacc rest = some g →
      '\n' ∉ g
  | [], bacc, g, _, h => by cases h
  | c :: rs, bacc, g, hb, h => by
    rw [findClose_cons] at h
    by_cases hc : c = ')' ∧ bacc ≠ [] ∧ tailOk rs
    · rw [if_pos hc] at h
      cases h
      intro hmem
      simp only [List.mem_append, List.mem_cons, List.not_mem_nil,
                 or_false] at hmem
      rcases hmem with h | h | h | h | h
      · exact ha h
      · exact absurd h (by decide)
      · exact absurd h (by decide)
      · exact hb h
      · exact absurd h (by decide)
    · rw [if_neg hc] at h
      by_cases hnl : c = '\n'
      · rw [if_pos hnl] at h; cases h
      · rw [if_neg hnl] at h
        exact findClose_no_nl ha rs (bacc ++ [c]) g
          (by
            simp only [List.mem_append, List.mem_singleton]
            rintro (h | h)
            · exact hb h
            · exact hnl h.symm) h

/-- `findA` results contain no newline beyond what `acc` holds. -/
theorem findA_no_nl :
    ∀ rest acc g, '\n' ∉ acc → findA acc rest = some g → '\n' ∉ g
  | [], acc, g, _, h => by cases h
  | c :: rs, acc, g, ha, h => by
    rw [findA_cons] at h
    by_cases hc : c = ' ' ∧ rs.head? = some '(' ∧ acc ≠ []
    · rw [if_pos hc] at h
      match hfc : findClose acc [] rs.tail with
      | some g' =>
        simp only [hfc] at h
        cases h
        exact findClose_no_nl ha rs.tail [] _ (by simp) hfc
      | none =>
        simp only [hfc] at h
        exact findA_no_nl rs (acc ++ [c]) g
          (by
            simp only [List.mem_append, List.mem_singleton]
            rintro (h | h)
            · exact ha h
            · rw [h.symm] at hc
              exact absurd hc.1 (by decide)) h
    · rw [if_neg hc] at h
      by_cases hnl : c = '\n'
      · rw [if_pos hnl] at h; cases h
      · rw [if_neg hnl] at h
        exact findA_no_nl rs (acc ++ [c]) g
          (by
            simp only [List.mem_append, List.mem_singleton]
            rintro (h | h)
            · exact ha h
            · exact hnl h.symm) h

/-- Every group 1 found by `findClose` ends in `')'`. -/
theorem findClose_shape {a : List Char} :
    ∀ rest bacc g, findClose a bacc rest = some g → ∃ p, g = p ++ [')']
  | [], bacc, g, h => by cases h
  | c :: rs, bacc, g, h => by
    rw [findClose_cons] at h
    by_cases hc : c = ')' ∧ bacc ≠ [] ∧ tailOk rs
    · rw [if_pos hc] at h
      cases h
      exact ⟨a ++ ' ' :: '(' :: bacc, by simp⟩
    · rw [if_neg hc] at h
      by_cases hnl : c = '\n'
      · rw [if_pos hnl] at h; cases h
      · rw [if_neg hnl] at h
        exact findClose_shape rs (bacc ++ [c]) g h

/-- Every group 1 found by `findA` ends in `')'`. -/
theorem findA_shape :
    ∀ rest acc g, findA acc rest = some g → ∃ p, g = p ++ [')']
  | [], acc, g, h => by cases h
  | c :: rs, acc, g, h => by
    rw [findA_cons] at h
    by_cases hc : c = ' ' ∧ rs.head? = some '(' ∧ acc ≠ []
    · rw [if_pos hc] at h
      match hfc : findClose acc [] rs.tail with
      | some g' =>
        simp only [hfc] at h
        cases h
        exact findClose_shape rs.tail [] _ hfc
      | none =>
        simp only [hfc] at h
        exact findA_shape rs (acc ++ [c]) g h
    · rw [if_neg hc] at h
      by_cases hnl : c = '\n'
      · rw [if_pos hnl] at h; cases h
      · rw [if_neg hnl] at h
        exact findA_shape rs (acc ++ [c]) g h

theorem takeWhile_all {p : Char → Bool} :
    ∀ l : List Char, (∀ c ∈ l, p c = true) → l.takeWhile p = l
  | [], _ => rfl
  | c :: l, h => by
    rw [List.takeWhile_cons, if_pos (h c (by simp))]
    rw [takeWhile_all l (fun d hd => h d (by simp [hd]))]

/-- `takeWhile` ignores a second chunk when it already stops inside the
first. -/
theorem takeWhile_append_stop {p : Char → Bool} :
    ∀ l m : List Char, (l.takeWhile p).length < l.length →
      (l ++ m).takeWhile p = l.takeWhile p
  | [], _, h => by simp at h
  | c :: l, m, h => by
    by_cases hc : p c
    · simp only [List.takeWhile_cons, hc, if_true, List.length_cons] at h
      simp only [List.cons_append, List.takeWhile_cons, hc, if_true]
      rw [takeWhile_append_stop l m (by omega)]
    · simp [List.takeWhile_cons, hc]

/-- `takeWhile` walks into a second chunk when it accepts all of the
first. -/
theorem takeWhile_append_all {p : Char → Bool} :
    ∀ l m : List Char, l.takeWhile p = l →
      (l ++ m).takeWhile p = l ++ m.takeWhile p
  | [], m, _ => by simp
  | c :: l, m, h => by
    by_cases hc : p c
    · simp only [List.takeWhile_cons, hc, if_true, List.cons.injEq] at h
      simp only [List.cons_append, List.takeWhile_cons, hc, if_true,
                 List.cons.injEq, true_and]
      exact takeWhile_append_all l m h.2
    · simp only [List.takeWhile_cons, hc, if_false] at h
      cases h

/-- If a prefix of `a ++ b` is longer than `a`, its character at
position `|a|` is `b`'s head. -/
theorem prefix_head_idx {p a b t : List Char} (h : a ++ b = p ++ t)
    (hlt : a.length < p.length) : b[0]? = p[a.length]? := by
  have h1 : (a ++ b)[a.length]? = (p ++ t)[a.length]? := by rw [h]
  rw [List.getElem?_append_right (le_refl a.length)] at h1
  rw [List.getElem?_append, if_pos hlt] at h1
  simpa using h1

theorem dotOsz_idx_ne_space : ∀ k, k < 4 → dotOsz[k]? ≠ some ' ' := by
  intro k hk
  interval_cases k <;> decide

theorem closeOsz_idx_ne_space :
    ∀ k, k < 5 → ((')' :: dotOsz)[k]?) ≠ some ' ' := by
  intro k hk
  interval_cases k <;> decide

/-- Key tail-compatibility: if `( \((\d+)\))?\.osz` matches after `r₃`
when the text continues with `" (n).osz"`, it already matched when the
text continued with just `".osz"` — the extra `" (n)"` chunk cannot
complete a tail that `".osz"` did not. -/
theorem tailOk_transfer {n : List Char} (hn : n ≠ [])
    (hd : ∀ c ∈ n, c.isDigit) :
    ∀ r₃ : List Char, tailOk (r₃ ++ dupSuffix n) = true →
      tailOk (r₃ ++ dotOsz) = true := by
  intro r₃ h
  rcases Bool.or_eq_true_iff.mp h with h | h
  · -- the `\.osz` (optional group absent) branch
    have hp := List.isPrefixOf_iff_prefix.mp h
    by_cases hr : 4 ≤ r₃.length
    · have h4 : dotOsz <+: r₃ :=
        List.prefix_of_prefix_length_le hp (List.prefix_append r₃ (dupSuffix n))
          (by simpa [dotOsz] using hr)
      have : dotOsz <+: r₃ ++ dotOsz := h4.trans (List.prefix_append r₃ dotOsz)
      unfold tailOk
      exact Bool.or_eq_true_iff.mpr (Or.inl (List.isPrefixOf_iff_prefix.mpr this))
    · exfalso
      obtain ⟨t, ht⟩ := hp
      have := prefix_head_idx ht.symm (by simpa [dotOsz] using Nat.lt_of_not_le hr)
      exact dotOsz_idx_ne_space r₃.length (by omega) (by simpa [dupSuffix] using this.symm)
  · -- the optional-group-present branch
    rcases r₃ with _ | ⟨c1, _ | ⟨c2, r₄⟩⟩
    · decide
    · exfalso
      rw [show ([c1] : List Char) ++ dupSuffix n
            = c1 :: ' ' :: ('(' :: (n ++ ')' :: dotOsz)) from rfl] at h
      simp only [tailOpt, Bool.and_eq_true, decide_eq_true_eq] at h
      exact absurd h.1.2 (by decide)
    · rw [show (c1 :: c2 :: r₄) ++ dupSuffix n = c1 :: c2 :: (r₄ ++ dupSuffix n)
            from rfl] at h
      simp only [tailOpt, Bool.and_eq_true, decide_eq_true_eq] at h
      obtain ⟨⟨hc1, hc2⟩, hinner⟩ := h
      rw [show (c1 :: c2 :: r₄) ++ dotOsz = c1 :: c2 :: (r₄ ++ dotOsz) from rfl]
      by_cases hall : r₄.takeWhile (fun c => c.isDigit) = r₄
      · -- all of `r₄` is digits: the `\)` after `\d+` would have to be
        -- the `' '` opening `" (n)"` — impossible.
        exfalso
        have hd4 : (r₄ ++ dupSuffix n).takeWhile (fun c => c.isDigit) = r₄ := by
          rw [takeWhile_append_all r₄ (dupSuffix n) hall]
          simp [dupSuffix, List.takeWhile_cons]
        rw [hd4] at hinner
        have hdrop : (r₄ ++ dupSuffix n).drop r₄.length = dupSuffix n :=
          List.drop_left r₄ (dupSuffix n)
        rw [hdrop] at hinner
        obtain ⟨t, ht⟩ := List.isPrefixOf_iff_prefix.mp hinner.2
        have hhd : some ')' = some ' ' := by
          have := congrArg List.head? ht
          simpa [dupSuffix] using this
        exact absurd hhd (by decide)
      · -- `takeWhile` stops inside `r₄`
        have hlt : (r₄.takeWhile (fun c => c.isDigit)).length < r₄.length := by
          have hle : (r₄.takeWhile (fun c => c.isDigit)).length ≤ r₄.length :=
            List.IsPrefix.length_le (List.takeWhile_prefix _)
          rcases Nat.lt_or_ge (r₄.takeWhile (fun c => c.isDigit)).length r₄.length
            with hlt | hge
          · exact hlt
          · exact absurd ((List.takeWhile_prefix _).eq_of_length (by omega)) hall
        have hd4 : (r₄ ++ dupSuffix n).takeWhile (fun c => c.isDigit) =
            r₄.takeWhile (fun c => c.isDigit) :=
          takeWhile_append_stop r₄ (dupSuffix n) hlt
        have hd4' : (r₄ ++ dotOsz).takeWhile (fun c => c.isDigit) =
            r₄.takeWhile (fun c => c.isDigit) :=
          takeWhile_append_stop r₄ dotOsz hlt
        rw [hd4] at hinner
        have hdrop : (r₄ ++ dupSuffix n).drop
            (r₄.takeWhile (fun c => c.isDigit)).length =
            (r₄.drop (r₄.takeWhile (fun c => c.isDigit)).length) ++ dupSuffix n :=
          List.drop_append_of_le_length (le_of_lt hlt)
        rw [hdrop] at hinner
        have hdrop' : (r₄ ++ dotOsz).drop
            (r₄.takeWhile (fun c => c.isDigit)).length =
            (r₄.drop (r₄.takeWhile (fun c => c.isDigit)).length) ++ dotOsz :=
          List.drop_append_of_le_length (le_of_lt hlt)
        by_cases h5 : 5 ≤ (r₄.drop (r₄.takeWhile (fun c => c.isDigit)).length).length
        · -- the `\)\.osz` witness sits inside `r₄` and transfers
          have hin : (')' :: dotOsz) <+:
              r₄.drop (r₄.takeWhile (fun c => c.isDigit)).length :=
            List.prefix_of_prefix_length_le
              (List.isPrefixOf_iff_prefix.mp hinner.2)
              (List.prefix_append _ (dupSuffix n)) (by simpa [dotOsz] using h5)
          refine Bool.or_eq_true_iff.mpr (Or.inr ?_)
          simp only [tailOpt, Bool.and_eq_true, decide_eq_true_eq]
          refine ⟨⟨hc1, hc2⟩, ?_, ?_⟩
          · rw [hd4']; exact hinner.1
          · rw [hd4', hdrop']
            exact List.isPrefixOf_iff_prefix.mpr
              (hin.trans (List.prefix_append _ dotOsz))
        · -- otherwise the witness would straddle into `" (n)"` at `' '`
          exfalso
          obtain ⟨t, ht⟩ := List.isPrefixOf_iff_prefix.mp hinner.2
          have hx : (r₄.drop (r₄.takeWhile (fun c => c.isDigit)).length).length < 5 :=
            Nat.lt_of_not_le h5
          have := prefix_head_idx ht.symm (by simpa [dotOsz] using hx)
          exact closeOsz_idx_ne_space _ hx (by simpa [dupSuffix] using this.symm)

/-- The duplicate tail `" (n).osz"` satisfies the optional-group
branch of the regex tail for any nonempty digit string `n`. -/
theorem tailOk_dupSuffix {n : List Char} (hn : n ≠ [])
    (hd : ∀ c ∈ n, c.isDigit) : tailOk (dupSuffix n) = true := by
  have hdd : (n ++ ')' :: dotOsz).takeWhile (fun c => c.isDigit) = n := by
    rw [takeWhile_append_all n _ (takeWhile_all n hd)]
    rw [show (')' :: dotOsz).takeWhile (fun c => c.isDigit) = [] from rfl]
    exact List.append_nil n
  have hne : n.isEmpty = false := by
    rcases n with _ | ⟨c, n'⟩
    · exact absurd rfl hn
    · rfl
  have hpre : (')' :: dotOsz).isPrefixOf
      ((n ++ ')' :: dotOsz).drop n.length) = true := by
    rw [List.drop_left]
    exact List.isPrefixOf_iff_prefix.mpr (List.prefix_refl _)
  unfold tailOk
  refine Bool.or_eq_true_iff.mpr (Or.inr ?_)
  show tailOpt (' ' :: '(' :: (n ++ ')' :: dotOsz)) = true
  simp only [tailOpt, hdd, hne, hpre]
  decide

/-- Calls of `findClose` that succeed on `… ++ ".osz"` with the group
closing exactly at the end succeed identically on `… ++ " (n).osz"`:
the optional group absorbs the `" (n)"`. -/
theorem findClose_transfer {n : List Char} (hn : n ≠ [])
    (hd : ∀ c ∈ n, c.isDigit) :
    ∀ r₂ a bacc,
      findClose a bacc (r₂ ++ dotOsz) =
        some (a ++ ' ' :: '(' :: (bacc ++ r₂)) →
      findClose a bacc (r₂ ++ dupSuffix n) =
        some (a ++ ' ' :: '(' :: (bacc ++ r₂))
  | [], a, bacc, h => by
    rw [List.nil_append, findClose_dotOsz] at h
    cases h
  | c :: r₃, a, bacc, h => by
    rw [List.cons_append, findClose_cons] at h
    rw [List.cons_append, findClose_cons]
    by_cases hc : c = ')' ∧ bacc ≠ [] ∧ tailOk (r₃ ++ dotOsz)
    · rw [if_pos hc] at h
      have hlen := congrArg List.length (Option.some.inj h)
      simp only [List.length_append, List.length_cons, List.length_nil] at hlen
      have hr3 : r₃ = [] := List.length_eq_zero.mp (by omega)
      subst hr3
      have hcond : c = ')' ∧ bacc ≠ [] ∧ tailOk ([] ++ dupSuffix n) = true :=
        ⟨hc.1, hc.2.1, by rw [List.nil_append]; exact tailOk_dupSuffix hn hd⟩
      rw [if_pos hcond, hc.1]
    · rw [if_neg hc] at h
      by_cases hnl : c = '\n'
      · rw [if_pos hnl] at h; cases h
      · rw [if_neg hnl] at h
        have hsplit : bacc ++ c :: r₃ = (bacc ++ [c]) ++ r₃ := by simp
        rw [hsplit] at h
        have hrec := findClose_transfer hn hd r₃ a (bacc ++ [c]) h
        have hcnew : ¬(c = ')' ∧ bacc ≠ [] ∧ tailOk (r₃ ++ dupSuffix n)) := by
          rintro ⟨h1, h2, h3⟩
          exact hc ⟨h1, h2, tailOk_transfer hn hd r₃ h3⟩
        rw [if_neg hcnew, if_neg hnl, hsplit]
        exact hrec

/-- If the text left of `".osz"` ends in `')'` preceded by at least one
other character, the `findClose` scan cannot fail: closing at that final
`')'` always succeeds. -/
theorem findClose_scan {a : List Char} :
    ∀ q bacc, '\n' ∉ q → bacc ++ q ≠ [] →
      findClose a bacc ((q ++ [')']) ++ dotOsz) ≠ none
  | [], bacc, _, hne => by
    rw [show (([] : List Char) ++ [')']) ++ dotOsz = ')' :: dotOsz from rfl]
    rw [findClose_cons]
    rw [if_pos ⟨rfl, by simpa using hne, by decide⟩]
    simp
  | c :: q', bacc, hnl, _ => by
    rw [show ((c :: q') ++ [')']) ++ dotOsz = c :: ((q' ++ [')']) ++ dotOsz)
          from by simp]
    rw [findClose_cons]
    by_cases hc : c = ')' ∧ bacc ≠ [] ∧ tailOk ((q' ++ [')']) ++ dotOsz)
    · rw [if_pos hc]; simp
    · rw [if_neg hc]
      have hcnl : ¬ c = '\n' := fun h => hnl (by subst h; exact List.mem_cons_self _ _)
      rw [if_neg hcnl]
      exact findClose_scan q' (bacc ++ [c])
        (fun h => hnl (List.mem_cons_of_mem _ h)) (by simp)

/-- On a successful anchored run, a ` \(` position whose `findClose`
fails cannot occur: either the remaining text ends with a closable
`')'` (so `findClose` succeeds) or the continued search fails, which
contradicts the assumed success. -/
theorem findA_noclose {acc r'' : List Char} (hnl : '\n' ∉ r'')
    (hfc : findClose acc [] (r'' ++ dotOsz) = none)
    (hcont : findA (acc ++ [' ']) ('(' :: (r'' ++ dotOsz)) =
      some (acc ++ ' ' :: '(' :: r'')) : False := by
  obtain ⟨p, hp⟩ := findA_shape _ _ _ hcont
  rcases List.eq_nil_or_concat r'' with hr | ⟨q, e, hq⟩
  on_goal 2 => rw [List.concat_eq_append] at hq
  · subst hr
    rw [List.nil_append, findA_cons] at hcont
    rw [if_neg (by intro hx; exact absurd hx.1 (by decide))] at hcont
    rw [if_neg (by decide)] at hcont
    rw [findA_dotOsz] at hcont
    cases hcont
  · subst hq
    -- the expected group 1 ends in `')'`, so `e = ')'`
    have h2 : (acc ++ ' ' :: '(' :: (q ++ [e])).getLast? = some ')' := by
      rw [hp]
      exact List.getLast?_concat _
    have h3 : (acc ++ ' ' :: '(' :: (q ++ [e])).getLast? = some e := by
      rw [show acc ++ ' ' :: '(' :: (q ++ [e]) =
            (acc ++ ' ' :: '(' :: q) ++ [e] from by simp]
      exact List.getLast?_concat _
    have he : e = ')' := Option.some.inj (h3.symm.trans h2)
    subst he
    rcases eq_or_ne q [] with hq0 | hq0
    · -- `r'' = [')']`: the continued search provably fails
      subst hq0
      rw [show (([] : List Char) ++ [')']) ++ dotOsz = ')' :: dotOsz from rfl]
        at hcont
      rw [findA_cons] at hcont
      rw [if_neg (by intro hx; exact absurd hx.1 (by decide))] at hcont
      rw [if_neg (by decide)] at hcont
      rw [findA_cons] at hcont
      rw [if_neg (by intro hx; exact absurd hx.1 (by decide))] at hcont
      rw [if_neg (by decide)] at hcont
      rw [findA_dotOsz] at hcont
      cases hcont
    · -- otherwise the scan closing at the final `')'` succeeds
      exact absurd hfc (findClose_scan q []
        (fun h => hnl (List.mem_append_left _ h))
        (by simpa using hq0))

/-- Main transfer: an anchored match whose group 1 is the whole stem
`acc ++ r` (with `".osz"` following) is preserved when `" (n)"` is
inserted before the `".osz"`. -/
theorem findA_transfer {n : List Char} (hn : n ≠ [])
    (hd : ∀ c ∈ n, c.isDigit) :
    ∀ k r acc, r.length ≤ k → '\n' ∉ acc ++ r →
      findA acc (r ++ dotOsz) = some (acc ++ r) →
      findA acc (r ++ dupSuffix n) = some (acc ++ r) := by
  intro k
  induction k with
  | zero =>
    intro r acc hk hnl hold
    have hr : r = [] := List.length_eq_zero.mp (Nat.le_zero.mp hk)
    subst hr
    rw [List.nil_append, findA_dotOsz] at hold
    cases hold
  | succ k ih =>
    intro r acc hk hnl hold
    rcases r with _ | ⟨c1, _ | ⟨c2, r''⟩⟩
    · rw [List.nil_append, findA_dotOsz] at hold
      cases hold
    · -- a one-character remainder cannot even reach a ` \(`
      exfalso
      rw [show ([c1] : List Char) ++ dotOsz = c1 :: dotOsz from rfl,
        findA_cons] at hold
      rw [if_neg (by intro hx; exact absurd hx.2.1 (by decide))] at hold
      by_cases hnl1 : c1 = '\n'
      · rw [if_pos hnl1] at hold; cases hold
      · rw [if_neg hnl1, findA_dotOsz] at hold
        cases hold
    · rw [show (c1 :: c2 :: r'') ++ dotOsz = c1 :: (c2 :: (r'' ++ dotOsz))
          from rfl, findA_cons] at hold
      rw [show (c1 :: c2 :: r'') ++ dupSuffix n =
          c1 :: (c2 :: (r'' ++ dupSuffix n)) from rfl, findA_cons]
      by_cases hc : c1 = ' ' ∧ c2 = '(' ∧ acc ≠ []
      · have hcT : c1 = ' ' ∧ (c2 :: (r'' ++ dotOsz)).head? = some '(' ∧
            acc ≠ [] := ⟨hc.1, by simp [hc.2.1], hc.2.2⟩
        have hcT' : c1 = ' ' ∧ (c2 :: (r'' ++ dupSuffix n)).head? = some '(' ∧
            acc ≠ [] := ⟨hc.1, by simp [hc.2.1], hc.2.2⟩
        rw [if_pos hcT] at hold
        rw [if_pos hcT']
        simp only [List.tail_cons] at hold ⊢
        obtain ⟨h1, h2, h3⟩ := hc
        subst h1
        subst h2
        match hfc : findClose acc [] (r'' ++ dotOsz) with
        | some g' =>
          simp only [hfc] at hold
          have hg : g' = acc ++ ' ' :: '(' :: r'' := Option.some.inj hold
          subst hg
          have harg : findClose acc [] (r'' ++ dotOsz) =
              some (acc ++ ' ' :: '(' :: ([] ++ r'')) := by
            rw [List.nil_append]
            exact hfc
          have := findClose_transfer hn hd r'' acc [] harg
          rw [List.nil_append] at this
          simp only [this]
        | none =>
          simp only [hfc] at hold
          exact absurd hold
            (by
              intro hcont
              exact findA_noclose
                (fun h => hnl (by
                  simp only [List.mem_append, List.mem_cons]
                  exact Or.inr (Or.inr (Or.inr h))))
                hfc hcont)
      · have hcT : ¬(c1 = ' ' ∧ (c2 :: (r'' ++ dotOsz)).head? = some '(' ∧
            acc ≠ []) := by
          intro hx
          exact hc ⟨hx.1, by simpa using hx.2.1, hx.2.2⟩
        have hcT' : ¬(c1 = ' ' ∧ (c2 :: (r'' ++ dupSuffix n)).head? = some '(' ∧
            acc ≠ []) := by
          intro hx
          exact hc ⟨hx.1, by simpa using hx.2.1, hx.2.2⟩
        rw [if_neg hcT] at hold
        rw [if_neg hcT']
        by_cases hnl1 : c1 = '\n'
        · rw [if_pos hnl1] at hold; cases hold
        · rw [if_neg hnl1] at hold
          rw [if_neg hnl1]
          have hsplit : acc ++ c1 :: c2 :: r'' = (acc ++ [c1]) ++ (c2 :: r'') := by
            simp
          rw [hsplit] at hold ⊢
          have hold' : findA (acc ++ [c1]) ((c2 :: r'') ++ dotOsz) =
              some ((acc ++ [c1]) ++ (c2 :: r'')) := hold
          have hnl' : '\n' ∉ (acc ++ [c1]) ++ (c2 :: r'') := by
            intro hmem
            apply hnl
            simp only [List.mem_append, List.mem_cons, List.mem_singleton,
              List.not_mem_nil, or_false] at hmem ⊢
            tauto
          exact ih (c2 :: r'') (acc ++ [c1])
            (by simp only [List.length_cons] at hk ⊢; omega) hnl' hold'

/-!
## Claim theorems
-/

/-- C1: the claim says a supplied override is used verbatim regardless of
the file name; the code consults the regex first and only falls back to
the override when the regex does not match, contradicting the CLI flag's
own documentation ("Override target repository name").  Evaluating the
code at the failing input: file `"A (B).osz"` with override `"X"`
resolves to `"A (B)"`, not `"X"`. -/
theorem c1_override_ignored_when_name_matches :
    resolve_name ("A (B).osz").data (some ("X").data) = some ("A (B)").data ∧
    ("A (B)").data ≠ ("X").data := by
  decide

/-- C2 counterexample: at bootstrap the code commits with message
`"New osu! map"`, not `"new project"`, and updates commit with
`"Map update"`, not `"content update"`; the claim's message strings are
false on the first commits ever created. -/
theorem c2_counterexample_commit_messages :
    git_initial_commit true ⟨[], none⟩ =
      some ⟨[⟨("New osu! map").data, []⟩], some 0⟩ ∧
    ("New osu! map").data ≠ ("new project").data ∧
    git_commit true ⟨[⟨("New osu! map").data, []⟩], some 0⟩ =
      some ⟨[⟨("New osu! map").data, []⟩, ⟨("Map update").data, [0]⟩], some 1⟩ ∧
    ("Map update").data ≠ ("content update").data := by
  decide

/-- C2 (amended): the initial commit carries message `"New osu! map"`
and zero parents; every update commit carries message `"Map update"` and
exactly one parent, the previous head. -/
theorem c2_commit_kinds (g : GitState) (h : Nat) (hh : g.headIdx = some h) :
    git_initial_commit true g =
      some { commits := g.commits ++ [⟨("New osu! map").data, []⟩],
             headIdx := some g.commits.length } ∧
    git_commit true g =
      some { commits := g.commits ++ [⟨("Map update").data, [h]⟩],
             headIdx := some g.commits.length } := by
  simp [git_initial_commit, git_commit, hh]

/-- Witness for `c2_commit_kinds` at a concrete one-commit repository. -/
theorem c2_commit_kinds_witness :
    (⟨[⟨("New osu! map").data, []⟩], some 0⟩ : GitState).headIdx = some 0 ∧
    (git_initial_commit true ⟨[⟨("New osu! map").data, []⟩], some 0⟩ =
      some { commits := [⟨("New osu! map").data, []⟩, ⟨("New osu! map").data, []⟩],
             headIdx := some 1 } ∧
     git_commit true ⟨[⟨("New osu! map").data, []⟩], some 0⟩ =
      some { commits := [⟨("New osu! map").data, []⟩, ⟨("Map update").data, [0]⟩],
             headIdx := some 1 }) :=
  ⟨rfl, c2_commit_kinds ⟨[⟨("New osu! map").data, []⟩], some 0⟩ 0 rfl⟩

/-- C3 counterexample: with no author/committer identity configured
(`sig = false`), importing a well-formed archive into a bootstrapped
repository hits the `.unwrap()` in `git_commit` and aborts the process
instead of returning an error result. -/
theorem c3_counterexample_commit_failure_aborts :
    (import_file ("A (B).osz").data none
        (.zip [⟨some ("a.txt").data, ("x").data⟩]) false false
        (some { readme := some (renderReadme ("A (B)").data),
                mapDir := some [], keptOsz := none,
                git := some ⟨[⟨("New osu! map").data, []⟩], some 0⟩ })).result
      = .aborted := by
  decide

/-- C3 (amended): failures while checking, opening or validating the
repository and the archive are surfaced as tagged `RunResult.err` values
and never abort; but staging/committing failures (missing identity,
unborn `HEAD`) abort the process.  Hence the import never aborts
provided the identity is configured, the name resolves, and any
pre-existing repository has a born `HEAD`. -/
theorem c3_no_abort_with_identity (fn : List Char) (ov : Option (List Char))
    (ar : Archive) (keep : Bool) (slot : Option RepoState)
    (hname : (resolve_name fn ov).isSome)
    (hhead : ∀ r g, slot = some r → r.git = some g → g.headIdx.isSome) :
    (import_file fn ov ar keep true slot).result ≠ .aborted := by
  obtain ⟨nm, hnm⟩ := Option.isSome_iff_exists.mp hname
  cases slot with
  | none =>
    simp only [import_file, hnm, git_initial_commit, if_true]
    cases ar with
    | unreadable => simp [importInto]
    | notZip => simp [importInto]
    | zip es =>
      by_cases hlen : es.length = 0
      · simp [importInto, hlen]
      · simp only [importInto, hlen, if_false, git_commit, if_true]
        cases hkeep : keep <;> simp
  | some r =>
    cases hg : r.git with
    | none => simp [import_file, hnm, hg]
    | some g =>
      have hh := hhead r g rfl hg
      obtain ⟨h, hh⟩ := Option.isSome_iff_exists.mp hh
      simp only [import_file, hnm, hg]
      cases ar with
      | unreadable => simp [importInto]
      | notZip => simp [importInto]
      | zip es =>
        by_cases hlen : es.length = 0
        · simp [importInto, hlen]
        · simp only [importInto, hlen, if_false, git_commit, hh, if_true]
          cases hkeep : keep <;> simp

/-- Witness for `c3_no_abort_with_identity` at a concrete input. -/
theorem c3_no_abort_with_identity_witness :
    (resolve_name ("A (B).osz").data none).isSome = true ∧
    (∀ r g, (none : Option RepoState) = some r → r.git = some g →
      g.headIdx.isSome) ∧
    (import_file ("A (B).osz").data none
        (.zip [⟨some ("a.txt").data, ("x").data⟩]) false true none).result
      ≠ .aborted :=
  ⟨by decide, (fun r g hr => by cases hr),
   c3_no_abort_with_identity ("A (B).osz").data none
     (.zip [⟨some ("a.txt").data, ("x").data⟩]) false none (by decide)
     (fun r g hr => by cases hr)⟩

/-- C4: an archive with zero entries makes `import_file` fail with the
empty-archive error while leaving the repository — in particular the
`map` content directory — exactly as it was: the `zip.len() == 0` check
(line 233) runs before the recursive `remove_dir_all` (line 241). -/
theorem c4_empty_archive_refused_before_removal (fn : List Char)
    (ov : Option (List Char)) (keep sig : Bool) (r : RepoState)
    (g : GitState) (nm : List Char)
    (hname : resolve_name fn ov = some nm) (hgit : r.git = some g) :
    import_file fn ov (.zip []) keep sig (some r) =
      ⟨.err .emptyArchive, some r, 0⟩ := by
  simp [import_file, hname, hgit, importInto]

/-- Witness for `c4_empty_archive_refused_before_removal`: a repository
whose `map` directory holds a file keeps it untouched. -/
theorem c4_empty_archive_refused_before_removal_witness :
    resolve_name ("A (B).osz").data none = some ("A (B)").data ∧
    (RepoState.mk (some (renderReadme ("A (B)").data))
        (some [(("old.txt").data, ("o").data)]) none
        (some ⟨[⟨("New osu! map").data, []⟩], some 0⟩)).git
      = some ⟨[⟨("New osu! map").data, []⟩], some 0⟩ ∧
    import_file ("A (B).osz").data none (.zip []) false true
        (some (RepoState.mk (some (renderReadme ("A (B)").data))
          (some [(("old.txt").data, ("o").data)]) none
          (some ⟨[⟨("New osu! map").data, []⟩], some 0⟩))) =
      ⟨.err .emptyArchive,
       some (RepoState.mk (some (renderReadme ("A (B)").data))
         (some [(("old.txt").data, ("o").data)]) none
         (some ⟨[⟨("New osu! map").data, []⟩], some 0⟩)), 0⟩ :=
  ⟨by decide, rfl,
   c4_empty_archive_refused_before_removal ("A (B).osz").data none false true
     (RepoState.mk (some (renderReadme ("A (B)").data))
       (some [(("old.txt").data, ("o").data)]) none
       (some ⟨[⟨("New osu! map").data, []⟩], some 0⟩))
     ⟨[⟨("New osu! map").data, []⟩], some 0⟩ ("A (B)").data (by decide) rfl⟩

/-- If the regex maps `X ++ ".osz"` to group 1 `X` itself, the match is
anchored at position 0: a match from any later start would leave group 1
strictly shorter than `X`. -/
theorem regexFirst_anchored {X : List Char}
    (h : regexFirst (X ++ dotOsz) = some X) :
    findA [] (X ++ dotOsz) = some X := by
  cases hX : X ++ dotOsz with
  | nil => simp [dotOsz] at hX
  | cons c rs =>
    rw [hX, regexFirst] at h
    match hfA : findA [] (c :: rs) with
    | some g =>
      simp only [hfA] at h
      exact h
    | none =>
      simp only [hfA] at h
      have hlen := regexFirst_length rs X h
      have hlen2 : (c :: rs).length = (X ++ dotOsz).length := by rw [hX]
      simp only [List.length_cons, List.length_append, dotOsz,
        List.length_nil] at hlen2
      omega

/-- C5 counterexample: the claim fails for canonical names whose own
trailing parenthetical is purely numeric.  `"A (B) (3)"` matches the
convention shape, yet `"A (B) (3).osz"` resolves to `"A (B)"` while its
duplicate export `"A (B) (3) (2).osz"` resolves to `"A (B) (3)"` — two
different repositories for the same project. -/
theorem c5_counterexample_numeric_parenthetical :
    resolve_name ("A (B) (3).osz").data none = some ("A (B)").data ∧
    resolve_name ("A (B) (3) (2).osz").data none = some ("A (B) (3)").data ∧
    (some ("A (B)").data : Option (List Char)) ≠ some ("A (B) (3)").data := by
  decide

/-- C5 (amended): for every canonical name `X` that the regex maps to
itself (`regexFirst (X ++ ".osz") = some X`, i.e. `X` matches the
convention and carries no strippable numeric duplicate suffix of its
own) and every nonempty digit string `n`, resolution yields the same
identifier `X` for `"X.osz"` and `"X (n).osz"`. -/
theorem c5_duplicate_collapse (X n : List Char)
    (hX : regexFirst (X ++ dotOsz) = some X)
    (hn : n ≠ []) (hd : ∀ c ∈ n, c.isDigit) :
    resolve_name (X ++ dotOsz) none = some X ∧
    resolve_name (X ++ dupSuffix n) none = some X := by
  have hA : findA [] (X ++ dotOsz) = some X := regexFirst_anchored hX
  have hnl : '\n' ∉ X := findA_no_nl _ _ _ (by simp) hA
  have hA' : findA [] (X ++ dupSuffix n) = some X := by
    have := findA_transfer hn hd X.length X [] (le_refl _)
      (by simpa using hnl) (by simpa using hA)
    simpa using this
  have hX' : regexFirst (X ++ dupSuffix n) = some X := by
    obtain ⟨p, hp⟩ := findA_shape _ _ _ hA
    rcases X with _ | ⟨x, X'⟩
    · exact absurd hp (by simp)
    · have hA'' : findA [] (x :: (X' ++ dupSuffix n)) = some (x :: X') := hA'
      rw [show (x :: X') ++ dupSuffix n = x :: (X' ++ dupSuffix n) from rfl,
        regexFirst]
      simp only [hA'']
  constructor
  · simp only [resolve_name, hX]
  · simp only [resolve_name, hX']

/-- Witness for `c5_duplicate_collapse` at `X = "A (B)"`, `n = "2"`. -/
theorem c5_duplicate_collapse_witness :
    regexFirst (("A (B)").data ++ dotOsz) = some ("A (B)").data ∧
    (['2'] : List Char) ≠ [] ∧
    (∀ c ∈ (['2'] : List Char), c.isDigit) ∧
    (resolve_name (("A (B)").data ++ dotOsz) none = some ("A (B)").data ∧
     resolve_name (("A (B)").data ++ dupSuffix ['2']) none =
       some ("A (B)").data) :=
  ⟨by decide, by decide, by decide,
   c5_duplicate_collapse ("A (B)").data ['2'] (by decide) (by decide)
     (by decide)⟩

/-- C6 counterexample: the fallback does not strip "the extension" — it
cuts exactly four characters (`".osz"`'s length).  For `"a.json"`
(which does not match the convention and has no override) the code
yields `"a."`, while the spec's "file name with its extension stripped"
is `"a"`. -/
theorem c6_counterexample_fallback_not_extension :
    resolve_name ("a.json").data none = some ("a.").data ∧
    spec_stripExtension ("a.json").data = ("a").data ∧
    ("a.").data ≠ ("a").data := by
  decide

/-- C6 (amended): for file names ending in `".osz"` (every name the
watcher forwards) that do not match the duplicate-export convention and
with no override, the resolved identifier is the file name with the
trailing `".osz"` removed; for other extensions the code still removes
exactly four trailing characters. -/
theorem c6_fallback_strips_dot_osz (stem : List Char)
    (h : regexFirst (stem ++ dotOsz) = none) :
    resolve_name (stem ++ dotOsz) none = some stem := by
  have hlen : (stem ++ dotOsz).length = stem.length + 4 := by
    simp [dotOsz]
  simp only [resolve_name, h, hlen]
  rw [if_neg (by omega)]
  have : stem.length + 4 - 4 = stem.length := by omega
  rw [this]
  rw [show (stem ++ dotOsz).take stem.length = stem from List.take_left stem dotOsz]

/-- Witness for `c6_fallback_strips_dot_osz` at `"ab.osz"`. -/
theorem c6_fallback_strips_dot_osz_witness :
    regexFirst (("ab").data ++ dotOsz) = none ∧
    resolve_name (("ab").data ++ dotOsz) none = some ("ab").data :=
  ⟨by decide, c6_fallback_strips_dot_osz ("ab").data (by decide)⟩

/-- C10: when no repository exists for the resolved name and the archive
then turns out to be unreadable, not a zip, or empty, the import returns
an error *after* having bootstrapped: the failed run leaves behind a
repository with the scaffold README, an empty `map` directory and one
initial commit (repository creation precedes archive validation). -/
theorem c10_failed_import_leaves_bootstrap (fn : List Char)
    (ov : Option (List Char)) (keep : Bool) (ar : Archive) (nm : List Char)
    (hname : resolve_name fn ov = some nm)
    (har : ar = .unreadable ∨ ar = .notZip ∨ ar = .zip []) :
    ∃ e, import_file fn ov ar keep true none =
      ⟨.err e,
       some { readme := some (renderReadme nm), mapDir := some [],
              keptOsz := none,
              git := some ⟨[⟨("New osu! map").data, []⟩], some 0⟩ }, 0⟩ := by
  rcases har with rfl | rfl | rfl
  · exact ⟨.openOszFailed, by simp [import_file, hname, git_initial_commit, importInto]⟩
  · exact ⟨.notZipArchive, by simp [import_file, hname, git_initial_commit, importInto]⟩
  · exact ⟨.emptyArchive, by simp [import_file, hname, git_initial_commit, importInto]⟩

/-- C7: the bootstrap is keyed on directory existence: a run that finds
no repository directory creates the scaffold README and exactly one
zero-parent (initial) commit; a run that finds the directory opens it
and neither rewrites the scaffold nor adds any initial commit, whatever
else happens. -/
theorem c7_bootstrap_at_most_once (fn : List Char) (ov : Option (List Char))
    (ar : Archive) (keep sig : Bool) (slot : Option RepoState)
    (nm : List Char) (hname : resolve_name fn ov = some nm) :
    (slot = none → sig = true →
      ∃ r', (import_file fn ov ar keep sig slot).repo = some r' ∧
        r'.readme = some (renderReadme nm) ∧
        initialCommitCount r'.git = 1) ∧
    (∀ r, slot = some r →
      ∃ r', (import_file fn ov ar keep sig slot).repo = some r' ∧
        r'.readme = r.readme ∧
        initialCommitCount r'.git = initialCommitCount r.git) := by
  constructor
  · rintro rfl rfl
    simp only [import_file, hname, git_initial_commit, if_true]
    cases ar with
    | unreadable => exact ⟨_, rfl, rfl, rfl⟩
    | notZip => exact ⟨_, rfl, rfl, rfl⟩
    | zip es =>
      by_cases hlen : es.length = 0
      · simp only [importInto, hlen, if_true]
        exact ⟨_, rfl, rfl, rfl⟩
      · simp only [importInto, hlen, if_false, git_commit, if_true]
        cases keep <;>
          simp [initialCommitCount, List.filter_append, List.filter_cons]
  · rintro r rfl
    cases hg : r.git with
    | none => exact ⟨r, by simp [import_file, hname, hg], rfl, by rw [hg]⟩
    | some g =>
      simp only [import_file, hname, hg]
      cases ar with
      | unreadable => exact ⟨r, rfl, rfl, by rw [hg]⟩
      | notZip => exact ⟨r, rfl, rfl, by rw [hg]⟩
      | zip es =>
        by_cases hlen : es.length = 0
        · simp only [importInto, hlen, if_true]
          exact ⟨r, rfl, rfl, by rw [hg]⟩
        · simp only [importInto, hlen, if_false]
          cases sig with
          | false =>
            simp only [git_commit, if_false]
            cases keep <;> simp [initialCommitCount, hg]
          | true =>
            cases hh : g.headIdx with
            | none =>
              simp only [git_commit, hh, if_true]
              cases keep <;> simp [initialCommitCount, hg]
            | some h =>
              simp only [git_commit, hh, if_true]
              cases keep <;>
                simp [initialCommitCount, hg, List.filter_append, List.filter_cons]

/-- Witness for `c7_bootstrap_at_most_once` on a bootstrap run. -/
theorem c7_bootstrap_at_most_once_witness :
    resolve_name ("A (B).osz").data none = some ("A (B)").data ∧
    (((none : Option RepoState) = none → true = true →
      ∃ r', (import_file ("A (B).osz").data none
          (.zip [⟨some ("a.txt").data, ("x").data⟩]) false true none).repo
          = some r' ∧
        r'.readme = some (renderReadme ("A (B)").data) ∧
        initialCommitCount r'.git = 1) ∧
     (∀ r, (none : Option RepoState) = some r →
      ∃ r', (import_file ("A (B).osz").data none
          (.zip [⟨some ("a.txt").data, ("x").data⟩]) false true none).repo
          = some r' ∧
        r'.readme = r.readme ∧
        initialCommitCount r'.git = initialCommitCount r.git)) :=
  ⟨by decide,
   c7_bootstrap_at_most_once ("A (B).osz").data none
     (.zip [⟨some ("a.txt").data, ("x").data⟩]) false true none
     ("A (B)").data (by decide)⟩

/-- C8: entries rejected by `enclosed_name()` are skipped — each adds one
warning, none is ever written, and the import still succeeds, extracting
exactly the non-escaping entries in archive order into `map/`. -/
theorem c8_escaping_entries_skipped (fn : List Char)
    (ov : Option (List Char)) (keep : Bool) (es : List Entry)
    (r : RepoState) (g : GitState) (h : Nat) (nm : List Char)
    (hname : resolve_name fn ov = some nm)
    (hgit : r.git = some g) (hhead : g.headIdx = some h) (hes : es ≠ []) :
    (import_file fn ov (.zip es) keep true (some r)).result = .ok ∧
    (import_file fn ov (.zip es) keep true (some r)).warnings =
      (es.filter (fun e => e.enclosedName.isNone)).length ∧
    ∃ r', (import_file fn ov (.zip es) keep true (some r)).repo = some r' ∧
      r'.mapDir =
        (if (es.filterMap (fun e => e.enclosedName.map (fun p => (p, e.data)))).isEmpty
         then none
         else some (es.filterMap (fun e => e.enclosedName.map (fun p => (p, e.data))))) := by
  have hlen : ¬ es.length = 0 := by
    simpa [List.length_eq_zero] using hes
  simp only [import_file, hname, hgit, importInto, hlen, if_false,
             extractEntries_eq, git_commit, hhead, if_true]
  cases keep <;> simp

/-- Witness for `c8_escaping_entries_skipped`: one escaping entry and
one good entry. -/
theorem c8_escaping_entries_skipped_witness :
    resolve_name ("A (B).osz").data none = some ("A (B)").data ∧
    (RepoState.mk (some (renderReadme ("A (B)").data)) (some []) none
        (some ⟨[⟨("New osu! map").data, []⟩], some 0⟩)).git
      = some ⟨[⟨("New osu! map").data, []⟩], some 0⟩ ∧
    (⟨[⟨("New osu! map").data, []⟩], some 0⟩ : GitState).headIdx = some 0 ∧
    ([(⟨none, ("evil").data⟩ : Entry), ⟨some ("a.txt").data, ("x").data⟩] ≠ []) ∧
    ((import_file ("A (B).osz").data none
        (.zip [⟨none, ("evil").data⟩, ⟨some ("a.txt").data, ("x").data⟩])
        false true
        (some (RepoState.mk (some (renderReadme ("A (B)").data)) (some []) none
          (some ⟨[⟨("New osu! map").data, []⟩], some 0⟩)))).result = .ok ∧
     (import_file ("A (B).osz").data none
        (.zip [⟨none, ("evil").data⟩, ⟨some ("a.txt").data, ("x").data⟩])
        false true
        (some (RepoState.mk (some (renderReadme ("A (B)").data)) (some []) none
          (some ⟨[⟨("New osu! map").data, []⟩], some 0⟩)))).warnings =
       (([(⟨none, ("evil").data⟩ : Entry), ⟨some ("a.txt").data, ("x").data⟩]).filter
         (fun e => e.enclosedName.isNone)).length ∧
     ∃ r', (import_file ("A (B).osz").data none
        (.zip [⟨none, ("evil").data⟩, ⟨some ("a.txt").data, ("x").data⟩])
        false true
        (some (RepoState.mk (some (renderReadme ("A (B)").data)) (some []) none
          (some ⟨[⟨("New osu! map").data, []⟩], some 0⟩)))).repo = some r' ∧
       r'.mapDir =
         (if (([(⟨none, ("evil").data⟩ : Entry), ⟨some ("a.txt").data, ("x").data⟩]).filterMap
               (fun e => e.enclosedName.map (fun p => (p, e.data)))).isEmpty
          then none
          else some (([(⟨none, ("evil").data⟩ : Entry), ⟨some ("a.txt").data, ("x").data⟩]).filterMap
            (fun e => e.enclosedName.map (fun p => (p, e.data)))))) :=
  ⟨by decide, rfl, rfl, by decide,
   c8_escaping_entries_skipped ("A (B).osz").data none false
     [⟨none, ("evil").data⟩, ⟨some ("a.txt").data, ("x").data⟩]
     (RepoState.mk (some (renderReadme ("A (B)").data)) (some []) none
       (some ⟨[⟨("New osu! map").data, []⟩], some 0⟩))
     ⟨[⟨("New osu! map").data, []⟩], some 0⟩ 0 ("A (B)").data
     (by decide) rfl rfl (by decide)⟩

/-- C9: a successful import into an existing repository appends exactly
one commit whose sole parent is the previous head; a successful
first import produces exactly the two commits (initial, no parent, then
update whose parent is the initial commit), in that order. -/
theorem c9_commit_linearity (fn : List Char) (ov : Option (List Char))
    (ar : Archive) (keep sig : Bool) (slot : Option RepoState)
    (nm : List Char) (hname : resolve_name fn ov = some nm) :
    (∀ r g, slot = some r → r.git = some g →
      (import_file fn ov ar keep sig slot).result = .ok →
      ∃ h r' g', g.headIdx = some h ∧
        (import_file fn ov ar keep sig slot).repo = some r' ∧
        r'.git = some g' ∧
        g'.commits = g.commits ++ [⟨("Map update").data, [h]⟩] ∧
        g'.headIdx = some g.commits.length) ∧
    (slot = none →
      (import_file fn ov ar keep sig slot).result = .ok →
      ∃ r' g', (import_file fn ov ar keep sig slot).repo = some r' ∧
        r'.git = some g' ∧
        g'.commits = [⟨("New osu! map").data, []⟩, ⟨("Map update").data, [0]⟩] ∧
        g'.headIdx = some 1) := by
  constructor
  · rintro r g rfl hg
    simp only [import_file, hname, hg]
    cases ar with
    | unreadable => intro hok; cases hok
    | notZip => intro hok; cases hok
    | zip es =>
      by_cases hlen : es.length = 0
      · simp only [importInto, hlen, if_true]
        intro hok; cases hok
      · simp only [importInto, hlen, if_false]
        cases sig with
        | false =>
          simp only [git_commit, if_false]
          cases keep <;> (intro hok; cases hok)
        | true =>
          cases hh : g.headIdx with
          | none =>
            simp only [git_commit, hh, if_true]
            cases keep <;> (intro hok; cases hok)
          | some h =>
            simp only [git_commit, hh, if_true]
            cases keep <;> (intro _; exact ⟨h, _, _, rfl, rfl, rfl, rfl, rfl⟩)
  · rintro rfl
    simp only [import_file, hname]
    cases sig with
    | false =>
      simp only [git_initial_commit, if_false]
      intro hok; cases hok
    | true =>
      simp only [git_initial_commit, if_true]
      cases ar with
      | unreadable => intro hok; cases hok
      | notZip => intro hok; cases hok
      | zip es =>
        by_cases hlen : es.length = 0
        · simp only [importInto, hlen, if_true]
          intro hok; cases hok
        · simp only [importInto, hlen, if_false, git_commit, if_true]
          cases keep <;> (intro _; exact ⟨_, _, rfl, rfl, rfl, rfl⟩)

/-- Witness for `c9_commit_linearity` on a bootstrap run. -/
theorem c9_commit_linearity_witness :
    resolve_name ("A (B).osz").data none = some ("A (B)").data ∧
    ((∀ r g, (none : Option RepoState) = some r → r.git = some g →
      (import_file ("A (B).osz").data none
          (.zip [⟨some ("a.txt").data, ("x").data⟩]) false true none).result = .ok →
      ∃ h r' g', g.headIdx = some h ∧
        (import_file ("A (B).osz").data none
          (.zip [⟨some ("a.txt").data, ("x").data⟩]) false true none).repo = some r' ∧
        r'.git = some g' ∧
        g'.commits = g.commits ++ [⟨("Map update").data, [h]⟩] ∧
        g'.headIdx = some g.commits.length) ∧
     ((none : Option RepoState) = none →
      (import_file ("A (B).osz").data none
          (.zip [⟨some ("a.txt").data, ("x").data⟩]) false true none).result = .ok →
      ∃ r' g', (import_file ("A (B).osz").data none
          (.zip [⟨some ("a.txt").data, ("x").data⟩]) false true none).repo = some r' ∧
        r'.git = some g' ∧
        g'.commits = [⟨("New osu! map").data, []⟩, ⟨("Map update").data, [0]⟩] ∧
        g'.headIdx = some 1)) :=
  ⟨by decide,
   c9_commit_linearity ("A (B).osz").data none
     (.zip [⟨some ("a.txt").data, ("x").data⟩]) false true none
     ("A (B)").data (by decide)⟩

/-- Witness for `c10_failed_import_leaves_bootstrap` with an empty
archive. -/
theorem c10_failed_import_leaves_bootstrap_witness :
    resolve_name ("A (B).osz").data none = some ("A (B)").data ∧
    ((Archive.zip []) = .unreadable ∨ (Archive.zip []) = .notZip ∨
      (Archive.zip []) = .zip []) ∧
    ∃ e, import_file ("A (B).osz").data none (.zip []) false true none =
      ⟨.err e,
       some { readme := some (renderReadme ("A (B)").data), mapDir := some [],
              keptOsz := none,
              git := some ⟨[⟨("New osu! map").data, []⟩], some 0⟩ }, 0⟩ :=
  ⟨by decide, Or.inr (Or.inr rfl),
   c10_failed_import_leaves_bootstrap ("A (B).osz").data none false
     (.zip []) ("A (B)").data (by decide) (Or.inr (Or.inr rfl))⟩

end Gitosu
